import Mathlib

/-!
The engine `calcProfitLossSIG`: a FIFO lot ledger and its profit-and-loss series.

Shallow embedding of `MatLab/MEX/C++/calcProfitLossSIG/calcProfitLossSIG.cpp`.

Modelling conventions
* `double` values (prices, `bigPoint`, `cost`, the output arrays) are exact
  rationals `ℚ`; the source only adds, subtracts and multiplies them.
* The signal column holds integer-valued doubles, so it is a `List Int`; on such
  values the conversions between `double` and `int` made by the source are exact
  inside the range of `int`.
* The integer part of the engine is given twice. The definitions with the names of
  the source compute on exact integers (`Int`), which is what the source computes
  as long as no value leaves the range of its 32-bit `int`; the theorems
  `tradeStep32_eq`, `ledgerTrace32_eq` and `mexFunction32_eq` state that agreement.
  The definitions with the suffix `32` follow the 32-bit `int` itself: the field
  `quantity`, `netPO`, `newPO`, `needQty` and the accumulator of `sumQty` hold
  values of `-2^31 .. 2^31 - 1`, an `int` sum, negation or `abs` wraps modulo
  `2^32` (two's complement), and a `double` outside the range converts to
  `-2^31`, as on the x86 targets of the source.
* `dataPtr` is the column-major price matrix seen as memory: `dataPtr k` is the
  cell read by `dataPtr[k]`; the open of bar `i` is cell `i`, its close is cell
  `i + rowsData`.
* `isMember` is called with `elements = numTrades` and first reads
  `arr[numTrades]`, one cell past the `numTrades` cells of `idxTrades`; the
  content of that cell is the parameter `oob`.
* `openLedger.at(0)` on an empty deque throws; the functions that reach it
  return `Option`, `none` being the exception.
* `cash[i]` and `openEQ[i]` are zero after `mxCreateDoubleMatrix` and are written
  only during iteration `i` of the main loop, so an iteration produces the two
  values instead of updating two arrays.
-/

namespace CalcProfitLossSIG

/-- The ledger line item `struct tradeEntry` (lines 36-41). The `int` field
`quantity` is an `Int`; the functions with the suffix `32` only store values of
`-2^31 .. 2^31 - 1` in it. -/
structure tradeEntry where
  index : Nat
  quantity : Int
  price : ℚ
  deriving DecidableEq, Repr

/-- Constructor for ledger line item creation (lines 310-318). The conversion of a
`double` argument to the `int qty` is made by the caller (`toInt32` in the functions
with the suffix `32`). -/
def createLineEntry (ID : Nat) (qty : Int) (price : ℚ) : tradeEntry :=
  { index := ID, quantity := qty, price := price }

/-- The recursive search `isMember(arr, elements, search)` (lines 321-337) for
`elements ≥ 0`: it compares `arr[elements]` first and then recurses downwards; the
call with `elements - 1 = -1` returns `0`. -/
def isMember (arr : Nat → Int) : Nat → Int → Int
  | 0, search => if arr 0 = search then 1 else 0
  | elements + 1, search =>
    if arr (elements + 1) = search then 1 else isMember arr elements search

/-- The accumulation `sumQty` (lines 340-350) on exact integers; `sumQty32` is the
same loop in the `int sumOfQty`, and the two agree while the gross position fits an
`int` (`sumQty32_eq`). -/
def sumQty (x : List tradeEntry) : Int :=
  x.foldl (fun sumOfQty it => sumOfQty + it.quantity) 0

/-- The shifted signal array `trades` (lines 158-170): `trades[0] = 0` and
`trades[i] = sig[i-1]` for `1 ≤ i ≤ rowsSig`. -/
def trades (sig : List Int) : List Int := 0 :: sig

/-- The read `trades[i]`. -/
def tradeAt (sig : List Int) (i : Nat) : Int := (trades sig).getD i 0

/-- The counter `numTrades` (lines 164-170): the non-zero cells among
`trades[1 .. rowsSig]`. -/
def numTrades (sig : List Int) : Nat :=
  (sig.filter (fun t => decide (t ≠ 0))).length

/-- The second pass (lines 175-184): the indices `0 ≤ i < rowsSig + 1` with
`trades[i] != 0`, in the order in which the loop stores them. -/
def idxTrades (sig : List Int) : List Nat :=
  (List.range (sig.length + 1)).filter (fun i => decide (tradeAt sig i ≠ 0))

/-- The memory read through the pointer `idxTrades`: the stored indices, and `oob`
in the cell after them. -/
def idxCell (idx : List Nat) (oob : Int) (k : Nat) : Int :=
  (List.map Int.ofNat idx).getD k oob

/-- The loop of the full-offset branch (lines 215-219): every line of the ledger is
popped from the front and its cash is added to `cash[i]`, here `c`. -/
def closeAll (p bigPoint cost : ℚ) : List tradeEntry → ℚ → ℚ
  | [], c => c
  | L :: rest, c =>
    closeAll p bigPoint cost rest
      (c + ((p - L.price) * L.quantity * bigPoint) - (|L.quantity| * cost))

/-- The loop `while (needQty != 0)` of the partial-offset branch (lines 234-256) on
the ledger, `needQty` and `cash[i]`. The test of line 237 compares
`abs(quantity)` with the signed `needQty`. Exact integers; `partialOffset32` is the
loop on `int`, equal to this one inside the range (`partialOffset32_eq`). -/
def partialOffset (p bigPoint cost : ℚ) :
    List tradeEntry → Int → ℚ → Option (List tradeEntry × ℚ)
  | [], needQty, c => if needQty ≠ 0 then none else some ([], c)
  | L :: rest, needQty, c =>
    if needQty = 0 then some (L :: rest, c)
    else if |L.quantity| > needQty then
      some ({ L with quantity := L.quantity + needQty } :: rest,
        c + ((p - L.price) * ((-needQty : Int) : ℚ) * bigPoint) - (|needQty| * cost))
    else
      partialOffset p bigPoint cost rest (needQty + L.quantity)
        (c + ((p - L.price) * ((-L.quantity : Int) : ℚ) * bigPoint) - (|L.quantity| * cost))

/-- The trade handling of bar `i` (lines 199-258) for the quantity `q = trades[i]`
at the price `p = dataPtr[i]`: the new ledger and the value of `cash[i]`. Exact
integers; `tradeStep32` is the handling on `int`, equal to this one while the gross
position and the trade fit an `int` (`tradeStep32_eq`). -/
def tradeStep (i : Nat) (q : Int) (p bigPoint cost : ℚ) (openLedger : List tradeEntry) :
    Option (List tradeEntry × ℚ) :=
  let netPO := sumQty openLedger
  if (netPO < 0 ∧ q < 0) ∨ (netPO > 0 ∧ q > 0) then
    some (openLedger ++ [createLineEntry i q p], 0)
  else if |q| ≥ |netPO| then
    let c := closeAll p bigPoint cost openLedger 0
    let newPO := q + netPO
    if newPO ≠ 0 then some ([createLineEntry i newPO p], c) else some ([], c)
  else
    partialOffset p bigPoint cost openLedger q 0

/-- The open-equity loop (lines 263-270) at the close `cl = dataPtr[i + rowsData]`. -/
def markToMarket (cl bigPoint : ℚ) (openLedger : List tradeEntry) : ℚ :=
  openLedger.foldl (fun eq L => eq + ((cl - L.price) * L.quantity * bigPoint)) 0

/-- What one iteration of the main loop leaves: `cash[i]`, `openEQ[i]` and the
ledger after the bar. -/
structure BarState where
  cash : ℚ
  openEQ : ℚ
  ledger : List tradeEntry
  deriving DecidableEq, Repr

/-- The main loop `for (i = idxTrades[0]; i < rowsSig; i++)` (lines 193-271) over the
bars still to process. `idx0` is `idxTrades[0]`, `arr` the memory behind
`idxTrades` and `nT` is `numTrades`. -/
def mainLoop (dataPtr : Nat → ℚ) (rowsData : Nat) (sig : List Int) (arr : Nat → Int)
    (nT idx0 : Nat) (bigPoint cost : ℚ) :
    List Nat → List tradeEntry → Option (List BarState)
  | [], _ => some []
  | i :: bars, openLedger =>
    match (if i ≠ idx0 ∧ isMember arr nT (i : Int) ≠ 0 then
        tradeStep i (tradeAt sig i) (dataPtr i) bigPoint cost openLedger
      else some (openLedger, 0)) with
    | none => none
    | some (ledger, c) =>
      match mainLoop dataPtr rowsData sig arr nT idx0 bigPoint cost bars ledger with
      | none => none
      | some out =>
        some ({ cash := c, openEQ := markToMarket (dataPtr (i + rowsData)) bigPoint ledger,
                ledger := ledger } :: out)

/-- The block `if (numTrades > 0)` (lines 173-274): the first trade is put on the
ledger and the main loop runs from `idxTrades[0]` to `rowsSig - 1`. With no trade
nothing is processed. -/
def ledgerTrace (dataPtr : Nat → ℚ) (sig : List Int) (bigPoint cost : ℚ) (oob : Int) :
    Option (List BarState) :=
  if numTrades sig > 0 then
    let idx0 := (idxTrades sig).getD 0 0
    mainLoop dataPtr sig.length sig (idxCell (idxTrades sig) oob) (numTrades sig) idx0
      bigPoint cost (List.range' idx0 (sig.length - idx0))
      [createLineEntry idx0 (tradeAt sig idx0) (dataPtr idx0)]
  else some []

/-- The first bar the main loop processes, `idxTrades[0]`; with no trade no bar is
processed and every cell keeps its initial zero. -/
def firstBar (sig : List Int) : Nat :=
  if numTrades sig > 0 then (idxTrades sig).getD 0 0 else sig.length

/-- The cumulative pass (lines 280-285) on the remaining cells of `cash` and
`openEQ` with the current `runSum`. -/
def netLiqPass : List ℚ → List ℚ → ℚ → List ℚ
  | c :: cash, e :: openEQ, runSum => (runSum + c + e) :: netLiqPass cash openEQ (runSum + c)
  | _, _, _ => []

/-- The loop `returns[i] = netLiq[i] - netLiq[i-1]` (lines 289-292) from the previous
cell on. -/
def returnsFrom : ℚ → List ℚ → List ℚ
  | _, [] => []
  | prev, x :: netLiq => (x - prev) :: returnsFrom x netLiq

/-- The returns pass (lines 288-292): `returns[0] = 0`, then the differences. -/
def returnsPass : List ℚ → List ℚ
  | [] => []
  | x :: netLiq => 0 :: returnsFrom x netLiq

/-- The four output arrays. -/
structure Outputs where
  cash : List ℚ
  openEQ : List ℚ
  netLiq : List ℚ
  returns : List ℚ
  deriving DecidableEq, Repr

/-- The aggregator (lines 278-292) on the filled `cash` and `openEQ` arrays. -/
def aggregate (cash openEQ : List ℚ) : Outputs :=
  { cash := cash, openEQ := openEQ, netLiq := netLiqPass cash openEQ 0,
    returns := returnsPass (netLiqPass cash openEQ 0) }

/-- The entry point `mexFunction` after the type checks. `rowsData` must equal
`rowsSig` (line 114), else the call aborts. The cells of `cash` and `openEQ` before
`idxTrades[0]` keep their initial zero. -/
def mexFunction (dataPtr : Nat → ℚ) (rowsData : Nat) (sig : List Int) (bigPoint cost : ℚ)
    (oob : Int) : Option Outputs :=
  if rowsData ≠ sig.length then none
  else
    match ledgerTrace dataPtr sig bigPoint cost oob with
    | none => none
    | some tr =>
      some (aggregate
        (List.replicate (firstBar sig) 0 ++ tr.map BarState.cash)
        (List.replicate (firstBar sig) 0 ++ tr.map BarState.openEQ))

/-- The column-major matrix `[open | close]` as memory; cells outside the matrix
read as `0`. -/
def colMajor (opens closes : List ℚ) (k : Nat) : ℚ := (opens ++ closes).getD k 0

/-- The shifted signal in the words of the specification: `trade[i] = sig[i-1]`
with `trade[0] = 0`. -/
def shiftedSignal (sig : List Int) (i : Nat) : Int :=
  if i = 0 then 0 else sig.getD (i - 1) 0

/-- The bar loop in the words of the specification, for comparison with `mainLoop`:
the ledger is walked over the bars in order, bar `i` handles a trade exactly when
the shifted signal is non-zero there, with `q = trade[i]` and `p = open(i)`, and
every bar is marked to its close. The trade handling itself is the one of the
source, `tradeStep`. -/
def laggedLoop (dataPtr : Nat → ℚ) (rowsData : Nat) (sig : List Int) (bigPoint cost : ℚ) :
    List Nat → List tradeEntry → Option (List BarState)
  | [], _ => some []
  | i :: bars, openLedger =>
    match (if shiftedSignal sig i ≠ 0 then
        tradeStep i (shiftedSignal sig i) (dataPtr i) bigPoint cost openLedger
      else some (openLedger, 0)) with
    | none => none
    | some (ledger, c) =>
      match laggedLoop dataPtr rowsData sig bigPoint cost bars ledger with
      | none => none
      | some out =>
        some ({ cash := c, openEQ := markToMarket (dataPtr (i + rowsData)) bigPoint ledger,
                ledger := ledger } :: out)

/-- The lagged run over all bars `0 .. N-1` from the empty ledger. -/
def laggedTrace (dataPtr : Nat → ℚ) (sig : List Int) (bigPoint cost : ℚ) :
    Option (List BarState) :=
  laggedLoop dataPtr sig.length sig bigPoint cost (List.range' 0 sig.length) []

/-- A bar on which nothing happens and nothing is open. -/
def idleBar : BarState := { cash := 0, openEQ := 0, ledger := [] }

/-- The ledgers the engine can hold between two bars: a positive net position, or
only short lots (the empty ledger included). -/
def ledgerInv (l : List tradeEntry) : Prop :=
  0 < sumQty l ∨ ∀ L ∈ l, L.quantity < 0

/-- All lots of one sign: all long or all short. -/
def singleSign (l : List tradeEntry) : Prop :=
  (∀ L ∈ l, 0 < L.quantity) ∨ (∀ L ∈ l, L.quantity < 0)

/-- The cash the full-offset branch books for one lot closed at `p`. -/
def closeCash (p bigPoint cost : ℚ) (L : tradeEntry) : ℚ :=
  (p - L.price) * L.quantity * bigPoint - |L.quantity| * cost

/-- The reference value of the zero-cost round trip in the words of the
specification: the sum over the executed bars `1 ≤ i ≤ N-1` of
`trade[i] * open(i)`. -/
def executedValue (dataPtr : Nat → ℚ) (sig : List Int) : ℚ :=
  ((List.range' 1 (sig.length - 1)).map (fun i => (shiftedSignal sig i : ℚ) * dataPtr i)).sum

/-- The contracts closed by a series of trades in the words of the specification:
an offsetting trade `q` against the net position `net` closes `min(|q|, |net|)`
contracts, an additive trade closes none. -/
def closedContracts : List Int → Int → Int
  | [], _ => 0
  | q :: qs, net =>
    (if net = 0 ∨ (net < 0 ∧ q < 0) ∨ (net > 0 ∧ q > 0) then 0 else min |q| |net|)
      + closedContracts qs (net + q)

/-- The ledgers that can be reached from the empty ledger by trade handlings. -/
inductive Reachable : List tradeEntry → Prop
  | empty : Reachable []
  | trade (i : Nat) (q : Int) (p bigPoint cost : ℚ) (l : List tradeEntry)
      (r : List tradeEntry × ℚ) :
      Reachable l → tradeStep i q p bigPoint cost l = some r → Reachable r.1

/-- The values of `needQty` at the successive tests of `while (needQty != 0)`
(lines 234-256), the last one being the value at the exit; `none` when `at(0)` is
reached on an empty ledger. It follows `partialOffset` branch by branch, on exact
integers; `needTrace32` is its counterpart on `int`. -/
def needTrace : List tradeEntry → Int → Option (List Int)
  | [], needQty => if needQty ≠ 0 then none else some [needQty]
  | L :: rest, needQty =>
    if needQty = 0 then some [needQty]
    else if |L.quantity| > needQty then some [needQty, 0]
    else (needTrace rest (needQty + L.quantity)).map (fun t => needQty :: t)

/-- The indices of `arr` that `isMember(arr, elements, search)` reads, in the order
of the reads (line 327 of each call). -/
def isMemberReads (arr : Nat → Int) : Nat → Int → List Nat
  | 0, _ => [0]
  | elements + 1, search =>
    (elements + 1) ::
      (if arr (elements + 1) = search then [] else isMemberReads arr elements search)

/-- The shape checks of lines 114-120: the row counts agree and `sig` has at most
one column. The number of columns of `data` is not looked at. -/
def shapeChecks (rowsData _colsData rowsSig colsSig : Nat) : Bool :=
  decide (rowsData = rowsSig) && !decide (colsSig > 1)

/-- The cell `dataPtr[idxTrades[0]]` read for the first trade (line 190), when there
is a trade. -/
def firstTradeRead (sig : List Int) : Option Nat :=
  if numTrades sig > 0 then some ((idxTrades sig).getD 0 0) else none

/-- The cells `dataPtr[i + rowsData]` read by the open-equity loop (line 268): one
read per lot of the ledger of each bar the main loop processes. -/
def closeReads (dataPtr : Nat → ℚ) (sig : List Int) (bigPoint cost : ℚ) (oob : Int) :
    Option (List Nat) :=
  (ledgerTrace dataPtr sig bigPoint cost oob).map (fun tr =>
    (List.zipWith (fun i b => List.replicate b.ledger.length (i + sig.length))
      (List.range' (firstBar sig) tr.length) tr).flatten)

/-! ### The engine on the 32-bit `int` of the source -/

/-- The largest `int`, `2^31 - 1`. -/
def intMax : Int := 2147483647

/-- The smallest `int`, `-2^31`. -/
def intMin : Int := -2147483648

/-- The `int` that an `int` operation stores when its exact result is `x`: the
two's complement wrap into `-2^31 .. 2^31 - 1`. -/
def wrap32 (x : Int) : Int := (x + 2147483648) % 4294967296 - 2147483648

/-- The conversion of an integer-valued `double` to `int`: the value itself inside
the range, `-2^31` outside. -/
def toInt32 (x : Int) : Int := if intMin ≤ x ∧ x ≤ intMax then x else intMin

/-- The call `abs(n)` on an `int`. -/
def abs32 (n : Int) : Int := wrap32 |n|

/-- The accumulation `sumQty` (lines 340-350) in the `int sumOfQty`. -/
def sumQty32 (x : List tradeEntry) : Int :=
  x.foldl (fun sumOfQty it => wrap32 (sumOfQty + it.quantity)) 0

/-- The loop of the full-offset branch (lines 215-219) with the `int` call
`abs(quantity)`. -/
def closeAll32 (p bigPoint cost : ℚ) : List tradeEntry → ℚ → ℚ
  | [], c => c
  | L :: rest, c =>
    closeAll32 p bigPoint cost rest
      (c + ((p - L.price) * L.quantity * bigPoint) - (abs32 L.quantity * cost))

/-- The loop `while (needQty != 0)` (lines 234-256) with the `int needQty` and the
`int` field `quantity`. -/
def partialOffset32 (p bigPoint cost : ℚ) :
    List tradeEntry → Int → ℚ → Option (List tradeEntry × ℚ)
  | [], needQty, c => if needQty ≠ 0 then none else some ([], c)
  | L :: rest, needQty, c =>
    if needQty = 0 then some (L :: rest, c)
    else if abs32 L.quantity > needQty then
      some ({ L with quantity := wrap32 (L.quantity + needQty) } :: rest,
        c + ((p - L.price) * ((wrap32 (-needQty) : Int) : ℚ) * bigPoint)
          - (abs32 needQty * cost))
    else
      partialOffset32 p bigPoint cost rest (wrap32 (needQty + L.quantity))
        (c + ((p - L.price) * ((wrap32 (-L.quantity) : Int) : ℚ) * bigPoint)
          - (abs32 L.quantity * cost))

/-- The trade handling of bar `i` (lines 199-258) with `int netPO`, `newPO` and
`needQty`; `q = trades[i]` is the integer-valued `double`, converted to `int` where
the source stores it in an `int` (lines 205, 221, 232). -/
def tradeStep32 (i : Nat) (q : Int) (p bigPoint cost : ℚ) (openLedger : List tradeEntry) :
    Option (List tradeEntry × ℚ) :=
  let netPO := sumQty32 openLedger
  if (netPO < 0 ∧ q < 0) ∨ (netPO > 0 ∧ q > 0) then
    some (openLedger ++ [createLineEntry i (toInt32 q) p], 0)
  else if |q| ≥ abs32 netPO then
    let c := closeAll32 p bigPoint cost openLedger 0
    let newPO := toInt32 (q + netPO)
    if newPO ≠ 0 then some ([createLineEntry i newPO p], c) else some ([], c)
  else
    partialOffset32 p bigPoint cost openLedger (toInt32 q) 0

/-- The values of the `int needQty` at the successive tests of
`while (needQty != 0)`, following `partialOffset32` branch by branch; `none` when
`at(0)` is reached on an empty ledger. -/
def needTrace32 : List tradeEntry → Int → Option (List Int)
  | [], needQty => if needQty ≠ 0 then none else some [needQty]
  | L :: rest, needQty =>
    if needQty = 0 then some [needQty]
    else if abs32 L.quantity > needQty then some [needQty, 0]
    else (needTrace32 rest (wrap32 (needQty + L.quantity))).map (fun t => needQty :: t)

/-- The main loop (lines 193-271) with the trade handling on `int`. -/
def mainLoop32 (dataPtr : Nat → ℚ) (rowsData : Nat) (sig : List Int) (arr : Nat → Int)
    (nT idx0 : Nat) (bigPoint cost : ℚ) :
    List Nat → List tradeEntry → Option (List BarState)
  | [], _ => some []
  | i :: bars, openLedger =>
    match (if i ≠ idx0 ∧ isMember arr nT (i : Int) ≠ 0 then
        tradeStep32 i (tradeAt sig i) (dataPtr i) bigPoint cost openLedger
      else some (openLedger, 0)) with
    | none => none
    | some (ledger, c) =>
      match mainLoop32 dataPtr rowsData sig arr nT idx0 bigPoint cost bars ledger with
      | none => none
      | some out =>
        some ({ cash := c, openEQ := markToMarket (dataPtr (i + rowsData)) bigPoint ledger,
                ledger := ledger } :: out)

/-- The block `if (numTrades > 0)` (lines 173-274) on `int`: the first trade is
converted to `int` when it is put on the ledger (line 190). -/
def ledgerTrace32 (dataPtr : Nat → ℚ) (sig : List Int) (bigPoint cost : ℚ) (oob : Int) :
    Option (List BarState) :=
  if numTrades sig > 0 then
    let idx0 := (idxTrades sig).getD 0 0
    mainLoop32 dataPtr sig.length sig (idxCell (idxTrades sig) oob) (numTrades sig) idx0
      bigPoint cost (List.range' idx0 (sig.length - idx0))
      [createLineEntry idx0 (toInt32 (tradeAt sig idx0)) (dataPtr idx0)]
  else some []

/-- The entry point `mexFunction` on `int`. -/
def mexFunction32 (dataPtr : Nat → ℚ) (rowsData : Nat) (sig : List Int) (bigPoint cost : ℚ)
    (oob : Int) : Option Outputs :=
  if rowsData ≠ sig.length then none
  else
    match ledgerTrace32 dataPtr sig bigPoint cost oob with
    | none => none
    | some tr =>
      some (aggregate
        (List.replicate (firstBar sig) 0 ++ tr.map BarState.cash)
        (List.replicate (firstBar sig) 0 ++ tr.map BarState.openEQ))

/-- The gross position of a ledger: the sum of the sizes `|quantity|` of its lots. -/
def grossQty (l : List tradeEntry) : Int :=
  (l.map (fun L => |L.quantity|)).sum

/-- The ledgers reached from the empty ledger by trade handlings on `int` in which
the gross position and the trade together stay within the range of `int`. -/
inductive Reachable32 : List tradeEntry → Prop
  | empty : Reachable32 []
  | trade (i : Nat) (q : Int) (p bigPoint cost : ℚ) (l : List tradeEntry)
      (r : List tradeEntry × ℚ) :
      Reachable32 l → grossQty l + |q| ≤ intMax →
      tradeStep32 i q p bigPoint cost l = some r → Reachable32 r.1

/-! ## Elementary facts on the accumulating loops -/

theorem foldl_qty (l : List tradeEntry) (a : Int) :
    l.foldl (fun sumOfQty it => sumOfQty + it.quantity) a
      = a + (l.map tradeEntry.quantity).sum := by
  induction l generalizing a with
  | nil => simp
  | cons L rest ih => simp [List.foldl_cons, ih, add_assoc]

theorem sumQty_eq (l : List tradeEntry) : sumQty l = (l.map tradeEntry.quantity).sum := by
  simp [sumQty, foldl_qty]

theorem sumQty_nil : sumQty [] = 0 := rfl

theorem sumQty_cons (L : tradeEntry) (l : List tradeEntry) :
    sumQty (L :: l) = L.quantity + sumQty l := by
  simp [sumQty_eq]

theorem sumQty_append (l m : List tradeEntry) : sumQty (l ++ m) = sumQty l + sumQty m := by
  simp [sumQty_eq]

theorem closeAll_eq (p bigPoint cost : ℚ) (l : List tradeEntry) (c : ℚ) :
    closeAll p bigPoint cost l c = c + (l.map (closeCash p bigPoint cost)).sum := by
  induction l generalizing c with
  | nil => simp [closeAll]
  | cons L rest ih =>
    simp only [closeAll, ih, List.map_cons, List.sum_cons, closeCash]
    push_cast
    ring

theorem sumQty_neg_of_all_neg (l : List tradeEntry) (hne : l ≠ [])
    (h : ∀ L ∈ l, L.quantity < 0) : sumQty l < 0 := by
  induction l with
  | nil => exact absurd rfl hne
  | cons L rest ih =>
    rw [sumQty_cons]
    have hL : L.quantity < 0 := h L (List.mem_cons_self _ _)
    by_cases hr : rest = []
    · subst hr; simpa [sumQty_nil] using hL
    · have := ih hr (fun M hM => h M (List.mem_cons_of_mem _ hM))
      omega

theorem sumQty_nonpos_of_all_neg (l : List tradeEntry)
    (h : ∀ L ∈ l, L.quantity < 0) : sumQty l ≤ 0 := by
  by_cases hne : l = []
  · subst hne; simp [sumQty_nil]
  · exact le_of_lt (sumQty_neg_of_all_neg l hne h)

theorem ledgerInv_nil : ledgerInv [] := Or.inr (by simp)

theorem ledgerInv_eq_nil (l : List tradeEntry) (h : ledgerInv l) (h0 : sumQty l = 0) :
    l = [] := by
  rcases h with h | h
  · omega
  · by_contra hne
    have := sumQty_neg_of_all_neg l hne h
    omega

theorem ledgerInv_all_neg (l : List tradeEntry) (h : ledgerInv l) (h0 : sumQty l < 0) :
    ∀ L ∈ l, L.quantity < 0 := by
  rcases h with h | h
  · omega
  · exact h

/-! ## The ledger invariant is kept by every trade -/

theorem partialOffset_zero (p bigPoint cost : ℚ) (l : List tradeEntry) (c : ℚ) :
    partialOffset p bigPoint cost l 0 c = some (l, c) := by
  cases l <;> simp [partialOffset]

/-- A buy against a book of short lots that is smaller than the book: the loop
ends, the lots left are short and the net position has moved by the buy. -/
theorem partialOffset_short (p bigPoint cost : ℚ) (l : List tradeEntry) :
    ∀ (needQty : Int) (c : ℚ), (∀ L ∈ l, L.quantity < 0) → 0 ≤ needQty →
      needQty < -sumQty l →
      ∃ r, partialOffset p bigPoint cost l needQty c = some r ∧
        (∀ L ∈ r.1, L.quantity < 0) ∧ sumQty r.1 = sumQty l + needQty := by
  induction l with
  | nil =>
    intro needQty c _ h0 h1
    simp [sumQty_nil] at h1
    omega
  | cons L rest ih =>
    intro needQty c hneg h0 h1
    have hL : L.quantity < 0 := hneg L (List.mem_cons_self _ _)
    have hrest : ∀ M ∈ rest, M.quantity < 0 := fun M hM => hneg M (List.mem_cons_of_mem _ hM)
    rw [sumQty_cons] at h1
    by_cases hz : needQty = 0
    · subst hz
      exact ⟨(L :: rest, c), partialOffset_zero _ _ _ _ _, hneg, by simp⟩
    · by_cases hgt : |L.quantity| > needQty
      · refine ⟨_, by simp only [partialOffset, hz, hgt, if_true, if_false]; rfl, ?_, ?_⟩
        · intro M hM
          rcases List.mem_cons.mp hM with h | h
          · subst h
            rw [abs_of_neg hL] at hgt
            show L.quantity + needQty < 0
            omega
          · exact hrest M h
        · simp only [sumQty_cons]; omega
      · rw [abs_of_neg hL] at hgt
        obtain ⟨r, hr, hr1, hr2⟩ := ih (needQty + L.quantity)
          (c + ((p - L.price) * ((-L.quantity : Int) : ℚ) * bigPoint) - (|L.quantity| * cost))
          hrest (by omega) (by omega)
        refine ⟨r, ?_, hr1, ?_⟩
        · have hgt2 : ¬ (|L.quantity| > needQty) := by rw [abs_of_neg hL]; exact hgt
          simp only [partialOffset, hz, hgt2, if_false]
          exact hr
        · rw [hr2, sumQty_cons]; omega

/-- A sell handled by the partial-offset loop: one iteration, which adds the whole
sell to the head lot. -/
theorem partialOffset_sell (p bigPoint cost : ℚ) (L : tradeEntry) (rest : List tradeEntry)
    (needQty : Int) (c : ℚ) (h : needQty < 0) :
    partialOffset p bigPoint cost (L :: rest) needQty c
      = some ({ L with quantity := L.quantity + needQty } :: rest,
          c + ((p - L.price) * ((-needQty : Int) : ℚ) * bigPoint) - (|needQty| * cost)) := by
  have hz : needQty ≠ 0 := by omega
  have hgt : |L.quantity| > needQty := lt_of_lt_of_le h (abs_nonneg _)
  simp only [partialOffset, hz, hgt, if_true, if_false]

theorem tradeStep_inv (i : Nat) (q : Int) (p bigPoint cost : ℚ) (l : List tradeEntry)
    (h : ledgerInv l) :
    ∃ r, tradeStep i q p bigPoint cost l = some r ∧ ledgerInv r.1 := by
  unfold tradeStep
  simp only []
  split_ifs with hadd hfull hnew
  · refine ⟨_, rfl, ?_⟩
    rcases hadd with ⟨hn, hq⟩ | ⟨hn, hq⟩
    · right
      intro M hM
      rcases List.mem_append.mp hM with hM | hM
      · exact ledgerInv_all_neg l h hn M hM
      · simp only [List.mem_singleton] at hM
        subst hM
        exact hq
    · left
      rw [sumQty_append]
      simp only [sumQty_cons, sumQty_nil, createLineEntry]
      omega
  · refine ⟨_, rfl, ?_⟩
    rcases lt_or_gt_of_ne hnew with hlt | hgt
    · right
      intro M hM
      simp only [List.mem_singleton] at hM
      subst hM
      exact hlt
    · left
      simp only [sumQty_cons, sumQty_nil, createLineEntry]
      omega
  · exact ⟨_, rfl, ledgerInv_nil⟩
  · -- partial offset
    have hnet : sumQty l ≠ 0 := by
      intro h0
      rw [h0] at hfull
      simp at hfull
    rcases lt_or_gt_of_ne hnet with hneg | hpos
    · have hq : 0 ≤ q := by
        by_contra hq
        exact hadd (Or.inl ⟨hneg, by omega⟩)
      have hlt : q < -sumQty l := by
        rw [abs_of_nonneg hq, abs_of_neg hneg] at hfull
        omega
      obtain ⟨r, hr, hr1, _⟩ := partialOffset_short p bigPoint cost l q 0
        (ledgerInv_all_neg l h hneg) hq hlt
      exact ⟨r, hr, Or.inr hr1⟩
    · have hq : q ≤ 0 := by
        by_contra hq
        exact hadd (Or.inr ⟨hpos, by omega⟩)
      rcases eq_or_lt_of_le hq with h0 | hlt
      · subst h0
        exact ⟨_, partialOffset_zero _ _ _ _ _, h⟩
      · cases l with
        | nil => simp [sumQty_nil] at hpos
        | cons L rest =>
          refine ⟨_, partialOffset_sell p bigPoint cost L rest q 0 hlt, Or.inl ?_⟩
          rw [abs_of_neg hlt, abs_of_pos hpos] at hfull
          simp only [sumQty_cons] at hpos hfull ⊢
          omega

/-- A trade of quantity zero changes nothing and books nothing. -/
theorem tradeStep_zero (i : Nat) (p bigPoint cost : ℚ) (l : List tradeEntry)
    (h : ledgerInv l) : tradeStep i 0 p bigPoint cost l = some (l, 0) := by
  unfold tradeStep
  simp only []
  have hadd : ¬ ((sumQty l < 0 ∧ (0 : Int) < 0) ∨ (sumQty l > 0 ∧ (0 : Int) > 0)) := by
    omega
  rw [if_neg hadd]
  by_cases hfull : |(0 : Int)| ≥ |sumQty l|
  · have h0 : sumQty l = 0 := by
      simp only [abs_zero, ge_iff_le] at hfull
      exact abs_eq_zero.mp (le_antisymm hfull (abs_nonneg _))
    have hl := ledgerInv_eq_nil l h h0
    subst hl
    simp [sumQty_nil, closeAll]
  · rw [if_neg hfull]
    exact partialOffset_zero _ _ _ _ _

/-- Opening the book: a trade on the empty ledger leaves the one new lot. -/
theorem tradeStep_nil (i : Nat) (q : Int) (p bigPoint cost : ℚ) (hq : q ≠ 0) :
    tradeStep i q p bigPoint cost [] = some ([createLineEntry i q p], 0) := by
  simp [tradeStep, sumQty_nil, closeAll, hq]

/-! ## The trade-bar index and the membership search -/

theorem tradeAt_eq_shiftedSignal (sig : List Int) (i : Nat) :
    tradeAt sig i = shiftedSignal sig i := by
  cases i with
  | zero => simp [tradeAt, trades, shiftedSignal]
  | succ j => simp [tradeAt, trades, shiftedSignal]

theorem tradeAt_zero (sig : List Int) : tradeAt sig 0 = 0 := by
  simp [tradeAt, trades]

theorem mem_idxTrades (sig : List Int) (i : Nat) :
    i ∈ idxTrades sig ↔ i ≤ sig.length ∧ tradeAt sig i ≠ 0 := by
  simp [idxTrades, List.mem_filter, List.mem_range, Nat.lt_succ_iff]

theorem idxTrades_sorted (sig : List Int) : List.Sorted (· < ·) (idxTrades sig) :=
  List.Pairwise.filter _ (List.sorted_lt_range _)

theorem length_filter_range (l : List Int) :
    ((List.range l.length).filter (fun j => decide (l.getD j 0 ≠ 0))).length
      = (l.filter (fun t => decide (t ≠ 0))).length := by
  induction l with
  | nil => simp
  | cons a rest ih =>
    rw [List.length_cons, List.range_succ_eq_map, List.filter_cons, List.filter_cons,
      List.filter_map]
    have hcomp : ((fun j => decide ((a :: rest).getD j 0 ≠ 0)) ∘ Nat.succ)
        = (fun j => decide (rest.getD j 0 ≠ 0)) := by
      funext j
      simp
    rw [hcomp]
    simp only [List.getD_cons_zero]
    split_ifs <;> simp only [List.length_cons, List.length_map, ih]

theorem numTrades_eq_length (sig : List Int) : numTrades sig = (idxTrades sig).length := by
  unfold numTrades idxTrades
  rw [List.range_succ_eq_map, List.filter_cons, List.filter_map]
  have hcomp : ((fun i => decide (tradeAt sig i ≠ 0)) ∘ Nat.succ)
      = (fun j => decide (sig.getD j 0 ≠ 0)) := by
    funext j
    simp [tradeAt, trades]
  rw [hcomp, if_neg (by simp [tradeAt_zero]), List.length_map, length_filter_range]

theorem isMember_ne_zero (arr : Nat → Int) (n : Nat) (s : Int) :
    isMember arr n s ≠ 0 ↔ ∃ k, k ≤ n ∧ arr k = s := by
  induction n with
  | zero =>
    by_cases h : arr 0 = s
    · simp [isMember, h]
    · simp [isMember, h]
  | succ m ih =>
    by_cases h : arr (m + 1) = s
    · simp only [isMember, h, if_true]
      exact ⟨fun _ => ⟨m + 1, le_refl _, h⟩, fun _ => by decide⟩
    · simp only [isMember, h, if_false, ih]
      constructor
      · rintro ⟨k, hk, hk2⟩
        exact ⟨k, by omega, hk2⟩
      · rintro ⟨k, hk, hk2⟩
        have : k ≠ m + 1 := fun e => h (e ▸ hk2)
        exact ⟨k, by omega, hk2⟩

theorem idxCell_lt (idx : List Nat) (oob : Int) (k : Nat) (h : k < idx.length) :
    idxCell idx oob k = ((idx.get ⟨k, h⟩ : Nat) : Int) := by
  unfold idxCell
  rw [List.getD_eq_getElem _ _ (by rw [List.length_map]; exact h), List.getElem_map]
  rfl

theorem idxCell_length (idx : List Nat) (oob : Int) : idxCell idx oob idx.length = oob := by
  unfold idxCell
  exact List.getD_eq_default _ _ (by rw [List.length_map])

/-- What the search of the main loop answers: the bar is a stored trade bar, or it
is the number found in the cell after the array. -/
theorem isMember_idxCell (idx : List Nat) (oob : Int) (i : Nat) :
    isMember (idxCell idx oob) idx.length (i : Int) ≠ 0 ↔ (oob = (i : Int) ∨ i ∈ idx) := by
  rw [isMember_ne_zero]
  constructor
  · rintro ⟨k, hk, hk2⟩
    rcases Nat.lt_or_ge k idx.length with hlt | hge
    · right
      rw [idxCell_lt idx oob k hlt] at hk2
      have : idx.get ⟨k, hlt⟩ = i := by exact_mod_cast hk2
      rw [← this]
      exact List.get_mem _ _ _
    · left
      have : k = idx.length := le_antisymm hk hge
      subst this
      rw [idxCell_length] at hk2
      exact hk2
  · rintro (h | h)
    · exact ⟨idx.length, le_refl _, by rw [idxCell_length]; exact h⟩
    · obtain ⟨n, hn⟩ := List.mem_iff_get.mp h
      refine ⟨n.1, le_of_lt n.2, ?_⟩
      rw [idxCell_lt idx oob n.1 n.2]
      exact_mod_cast hn

theorem firstBar_le (sig : List Int) : firstBar sig ≤ sig.length := by
  unfold firstBar
  split_ifs with h
  · rw [numTrades_eq_length] at h
    cases hidx : idxTrades sig with
    | nil => simp [hidx] at h
    | cons a rest =>
      have : a ∈ idxTrades sig := by rw [hidx]; exact List.mem_cons_self _ _
      simpa using ((mem_idxTrades sig a).mp this).1
  · exact le_refl _

theorem tradeAt_firstBar (sig : List Int) (h : numTrades sig > 0) :
    tradeAt sig (firstBar sig) ≠ 0 := by
  unfold firstBar
  rw [if_pos h]
  rw [numTrades_eq_length] at h
  cases hidx : idxTrades sig with
  | nil => simp [hidx] at h
  | cons a rest =>
    have : a ∈ idxTrades sig := by rw [hidx]; exact List.mem_cons_self _ _
    simpa using ((mem_idxTrades sig a).mp this).2

theorem tradeAt_before_firstBar (sig : List Int) (i : Nat) (h : i < firstBar sig) :
    tradeAt sig i = 0 := by
  by_contra hne
  have hle := firstBar_le sig
  have hmem : i ∈ idxTrades sig := (mem_idxTrades sig i).mpr ⟨by omega, hne⟩
  unfold firstBar at h
  have hs := idxTrades_sorted sig
  split_ifs at h with hn
  · cases hidx : idxTrades sig with
    | nil => rw [hidx] at hmem; simp at hmem
    | cons a rest =>
      rw [hidx] at hmem hs h
      simp only [List.getD_cons_zero] at h
      rcases List.mem_cons.mp hmem with e | e
      · omega
      · have := List.rel_of_sorted_cons hs i e
        omega
  · rw [numTrades_eq_length] at hn
    cases hidx : idxTrades sig with
    | nil => rw [hidx] at hmem; simp at hmem
    | cons a rest => simp [hidx] at hn

/-! ## The main loop is the lagged bar loop -/

/-- The trade handling of one bar of the lagged loop never throws and keeps the
ledger invariant. -/
theorem laggedStep_inv (dataPtr : Nat → ℚ) (sig : List Int) (bigPoint cost : ℚ) (i : Nat)
    (l : List tradeEntry) (h : ledgerInv l) :
    ∃ r, (if shiftedSignal sig i ≠ 0 then
        tradeStep i (shiftedSignal sig i) (dataPtr i) bigPoint cost l
      else some (l, 0)) = some r ∧ ledgerInv r.1 := by
  split_ifs with hq
  · exact tradeStep_inv i _ _ bigPoint cost l h
  · exact ⟨(l, 0), rfl, h⟩

/-- On a bar after the first trade bar the test of the main loop and the test on
the shifted signal lead to the same ledger and cash, whatever the cell after
`idxTrades` holds. -/
theorem mainStep_eq_laggedStep (dataPtr : Nat → ℚ) (sig : List Int) (bigPoint cost : ℚ)
    (oob : Int) (idx0 i : Nat) (l : List tradeEntry) (h : ledgerInv l)
    (hi : idx0 < i) (hN : i ≤ sig.length) :
    (if i ≠ idx0 ∧ isMember (idxCell (idxTrades sig) oob) (numTrades sig) (i : Int) ≠ 0 then
        tradeStep i (tradeAt sig i) (dataPtr i) bigPoint cost l
      else some (l, 0))
    = (if shiftedSignal sig i ≠ 0 then
        tradeStep i (shiftedSignal sig i) (dataPtr i) bigPoint cost l
      else some (l, 0)) := by
  have hmem : isMember (idxCell (idxTrades sig) oob) (numTrades sig) (i : Int) ≠ 0
      ↔ (oob = (i : Int) ∨ (i ≤ sig.length ∧ tradeAt sig i ≠ 0)) := by
    rw [numTrades_eq_length, isMember_idxCell, mem_idxTrades]
  rw [← tradeAt_eq_shiftedSignal]
  by_cases hq : tradeAt sig i = 0
  · rw [if_neg (show ¬ (tradeAt sig i ≠ 0) by simp [hq]), hq]
    split_ifs
    · exact tradeStep_zero i _ bigPoint cost l h
    · rfl
  · rw [if_pos hq, if_pos ⟨by omega, hmem.mpr (Or.inr ⟨hN, hq⟩)⟩]

theorem mainLoop_eq_laggedLoop (dataPtr : Nat → ℚ) (rowsData : Nat) (sig : List Int)
    (bigPoint cost : ℚ) (oob : Int) (idx0 : Nat) (bars : List Nat) :
    ∀ l : List tradeEntry, ledgerInv l → (∀ i ∈ bars, idx0 < i ∧ i ≤ sig.length) →
      mainLoop dataPtr rowsData sig (idxCell (idxTrades sig) oob) (numTrades sig) idx0
          bigPoint cost bars l
        = laggedLoop dataPtr rowsData sig bigPoint cost bars l := by
  induction bars with
  | nil => intro l _ _; rfl
  | cons i bars ih =>
    intro l hl hb
    have hi := hb i (List.mem_cons_self _ _)
    obtain ⟨⟨l1, c1⟩, hr, hinv⟩ := laggedStep_inv dataPtr sig bigPoint cost i l hl
    simp only [mainLoop, laggedLoop]
    rw [mainStep_eq_laggedStep dataPtr sig bigPoint cost oob idx0 i l hl hi.1 hi.2, hr]
    simp only []
    rw [ih l1 hinv (fun j hj => hb j (List.mem_cons_of_mem _ hj))]

/-- The bars before the first trade: nothing is open and nothing is booked. -/
theorem laggedLoop_idle (dataPtr : Nat → ℚ) (rowsData : Nat) (sig : List Int)
    (bigPoint cost : ℚ) (ys : List Nat) (n : Nat) :
    ∀ s : Nat, (∀ i, s ≤ i → i < s + n → shiftedSignal sig i = 0) →
      laggedLoop dataPtr rowsData sig bigPoint cost (List.range' s n ++ ys) []
        = (laggedLoop dataPtr rowsData sig bigPoint cost ys []).map
            (fun out => List.replicate n idleBar ++ out) := by
  induction n with
  | zero =>
    intro s _
    change laggedLoop dataPtr rowsData sig bigPoint cost ys [] = _
    cases laggedLoop dataPtr rowsData sig bigPoint cost ys [] <;> rfl
  | succ n ih =>
    intro s hs
    have h0 : shiftedSignal sig s = 0 := hs s (le_refl _) (by omega)
    rw [List.range'_succ, List.cons_append]
    simp only [laggedLoop]
    rw [if_neg (by simp [h0])]
    simp only []
    rw [ih (s + 1) (fun i h1 h2 => hs i (by omega) (by omega))]
    cases laggedLoop dataPtr rowsData sig bigPoint cost ys [] with
    | none => rfl
    | some out =>
      simp only [Option.map_some', List.replicate_succ, List.cons_append]
      rfl

theorem ledgerInv_single (i : Nat) (q : Int) (p : ℚ) (hq : q ≠ 0) :
    ledgerInv [createLineEntry i q p] := by
  rcases lt_or_gt_of_ne hq with h | h
  · right
    intro M hM
    simp only [List.mem_singleton] at hM
    subst hM
    exact h
  · left
    simp only [sumQty_cons, sumQty_nil, createLineEntry]
    omega

/-- The bars the main loop processes are the bars of the lagged run from the first
trade bar on. -/
theorem ledgerTrace_eq_lagged (dataPtr : Nat → ℚ) (sig : List Int) (bigPoint cost : ℚ)
    (oob : Int) :
    ledgerTrace dataPtr sig bigPoint cost oob
      = laggedLoop dataPtr sig.length sig bigPoint cost
          (List.range' (firstBar sig) (sig.length - firstBar sig)) [] := by
  unfold ledgerTrace
  by_cases hn : numTrades sig > 0
  · have hf : (idxTrades sig).getD 0 0 = firstBar sig := by simp [firstBar, hn]
    simp only [hn, if_true, hf]
    cases hk : sig.length - firstBar sig with
    | zero => rfl
    | succ k =>
      have hq := tradeAt_firstBar sig hn
      rw [List.range'_succ]
      simp only [mainLoop, laggedLoop, ne_eq, not_true_eq_false, false_and, if_false]
      rw [← tradeAt_eq_shiftedSignal, if_pos hq, tradeStep_nil _ _ _ _ _ hq]
      simp only []
      rw [mainLoop_eq_laggedLoop dataPtr sig.length sig bigPoint cost oob (firstBar sig) _ _
        (ledgerInv_single _ _ _ hq)]
      intro i hi
      rw [List.mem_range'_1] at hi
      omega
  · have hf : firstBar sig = sig.length := by simp [firstBar, hn]
    simp [hn, hf, laggedLoop]

/-- The lagged run over all bars is the idle bars before the first trade bar
followed by what the main loop produces. -/
theorem ledgerTrace_lagged (dataPtr : Nat → ℚ) (sig : List Int) (bigPoint cost : ℚ)
    (oob : Int) :
    (ledgerTrace dataPtr sig bigPoint cost oob).map
        (fun tr => List.replicate (firstBar sig) idleBar ++ tr)
      = laggedTrace dataPtr sig bigPoint cost := by
  have hle := firstBar_le sig
  have hsplit : List.range' 0 sig.length
      = List.range' 0 (firstBar sig) ++ List.range' (firstBar sig) (sig.length - firstBar sig) := by
    have h := List.range'_append_1 0 (firstBar sig) (sig.length - firstBar sig)
    rw [Nat.zero_add] at h
    rw [h]
    congr 1
    omega
  unfold laggedTrace
  rw [hsplit, laggedLoop_idle, ledgerTrace_eq_lagged]
  intro i _ hi
  rw [← tradeAt_eq_shiftedSignal]
  exact tradeAt_before_firstBar sig i (by omega)

/-- The outputs of `mexFunction` are the aggregation of the lagged run; the cell
after `idxTrades` has no influence. -/
theorem mexFunction_eq_lagged (dataPtr : Nat → ℚ) (sig : List Int) (bigPoint cost : ℚ)
    (oob : Int) :
    mexFunction dataPtr sig.length sig bigPoint cost oob
      = (laggedTrace dataPtr sig bigPoint cost).map
          (fun tr => aggregate (tr.map BarState.cash) (tr.map BarState.openEQ)) := by
  rw [← ledgerTrace_lagged dataPtr sig bigPoint cost oob]
  unfold mexFunction
  rw [if_neg (by simp)]
  cases ledgerTrace dataPtr sig bigPoint cost oob with
  | none => rfl
  | some tr =>
    simp only [Option.map_some', List.map_append, List.map_replicate]
    rfl

/-! ## Ledger sign purity and the partial offset -/

/-- C1 (ledger sign purity), evaluated on the executed signals 2, 3, -4: with
opens `[5, 10, 20, 30]`, `sig = [2, 3, -4, 0]`, `bigPoint = 10`, `cost = 1` the
sell of 4 on bar 3 is added whole to the head lot `+2 @10`, so the ledger after
bar 3 is `[-2 @10, +3 @20]`, which is not of one sign. -/
theorem sign_purity_fails_on_2_3_m4 (oob : Int) :
    ledgerTrace (colMajor [5, 10, 20, 30] [5, 10, 20, 30]) [2, 3, -4, 0] 10 1 oob
      = some [
          { cash := 0, openEQ := 0, ledger := [⟨1, 2, 10⟩] },
          { cash := 0, openEQ := 200, ledger := [⟨1, 2, 10⟩, ⟨2, 3, 20⟩] },
          { cash := 796, openEQ := -100, ledger := [⟨1, -2, 10⟩, ⟨2, 3, 20⟩] }]
    ∧ ¬ singleSign [⟨1, -2, 10⟩, ⟨2, 3, 20⟩] := by
  constructor
  · rw [ledgerTrace_eq_lagged]
    decide!
  · unfold singleSign
    decide

/-- C2 (partial FIFO reduction), evaluated on the ledger `[+2 @10, +3 @20]` with
`q = -4`, `p = 30`, `bigPoint = 10`, `cost = 1`: the head lot of 2 is reduced by 4
to `-2`, the second lot is untouched and the cash booked is
`(30 - 10) * 4 * 10 - 4 = 796`, not `596` with the single lot `+1 @20` left; the
run on the opens `[5, 10, 20, 30]` with `sig = [2, 3, -4, 0]` reaches that step on
bar 3. -/
theorem partial_reduction_fails_on_long_book (oob : Int) :
    tradeStep 3 (-4) 30 10 1 [⟨1, 2, 10⟩, ⟨2, 3, 20⟩]
      = some ([⟨1, -2, 10⟩, ⟨2, 3, 20⟩], 796)
    ∧ tradeStep 3 (-4) 30 10 1 [⟨1, 2, 10⟩, ⟨2, 3, 20⟩] ≠ some ([⟨2, 1, 20⟩], 596)
    ∧ mexFunction (colMajor [5, 10, 20, 30] [5, 10, 20, 30]) 4 [2, 3, -4, 0] 10 1 oob
      = some { cash := [0, 0, 0, 796], openEQ := [0, 0, 200, -100],
               netLiq := [0, 0, 200, 696], returns := [0, 0, 200, 496] } := by
  have e := mexFunction_eq_lagged (colMajor [5, 10, 20, 30] [5, 10, 20, 30])
    [2, 3, -4, 0] 10 1 oob
  rw [show ([2, 3, -4, 0] : List Int).length = 4 from rfl] at e
  rw [e]
  refine ⟨?_, ?_, ?_⟩ <;> decide!

/-- C3 (sign convention of realized cash), evaluated on the short book
`[-1 @50, -2 @50]` at the price 40 with `bigPoint = 10`, `cost = 0`: a buy of 1
closes the head lot whole and books `-100`, a buy of 2 books `-100 + 100 = 0`,
while the full offset by a buy of 3 books `+300` for the same lots; the run on the
opens `[60, 50, 50, 40]` with `sig = [-1, -2, 2, 0]` realizes no cash on bar 3. -/
theorem short_close_books_negative_cash (oob : Int) :
    tradeStep 3 1 40 10 0 [⟨1, -1, 50⟩, ⟨2, -2, 50⟩] = some ([⟨2, -2, 50⟩], -100)
    ∧ tradeStep 3 2 40 10 0 [⟨1, -1, 50⟩, ⟨2, -2, 50⟩] = some ([⟨2, -1, 50⟩], 0)
    ∧ tradeStep 3 3 40 10 0 [⟨1, -1, 50⟩, ⟨2, -2, 50⟩] = some ([], 300)
    ∧ mexFunction (colMajor [60, 50, 50, 40] [60, 50, 50, 40]) 4 [-1, -2, 2, 0] 10 0 oob
      = some { cash := [0, 0, 0, 0], openEQ := [0, 0, 0, 100],
               netLiq := [0, 0, 0, 100], returns := [0, 0, 0, 100] } := by
  have e := mexFunction_eq_lagged (colMajor [60, 50, 50, 40] [60, 50, 50, 40])
    [-1, -2, 2, 0] 10 0 oob
  rw [show ([-1, -2, 2, 0] : List Int).length = 4 from rfl] at e
  rw [e]
  refine ⟨?_, ?_, ?_, ?_⟩ <;> decide!

/-! ## The single round trip of the specification -/

/-- C4, the claim as stated is false: for `open = close = [100, 102, 105]`,
`sig = [1, 0, -1]`, `bigPoint = 10`, `cost = 1` no content of the cell after
`idxTrades` makes the engine return `cash = [0, 0, 49]`, `openEQ = [0, 20, 0]`,
`netLiq = [0, 20, 49]`, `returns = [0, 20, 29]`. -/
theorem round_trip_as_stated_is_false :
    ¬ ∃ oob : Int,
      mexFunction (colMajor [100, 102, 105] [100, 102, 105]) 3 [1, 0, -1] 10 1 oob
        = some { cash := [0, 0, 49], openEQ := [0, 20, 0], netLiq := [0, 20, 49],
                 returns := [0, 20, 29] } := by
  rintro ⟨oob, h⟩
  have e := mexFunction_eq_lagged (colMajor [100, 102, 105] [100, 102, 105]) [1, 0, -1] 10 1 oob
  rw [show ([1, 0, -1] : List Int).length = 3 from rfl, h] at e
  revert e
  decide!

/-- C4 as amended: for `open = close = [100, 102, 105]`, `sig = [1, 0, -1]`,
`bigPoint = 10`, `cost = 1` the engine returns `cash = [0, 0, 0]`,
`openEQ = [0, 0, 30]`, `netLiq = [0, 0, 30]`, `returns = [0, 0, 30]`: the `+1` is
entered on bar 1 at its open 102 and stays open, the `-1` of the last bar is never
executed. -/
theorem round_trip_with_lag (oob : Int) :
    mexFunction (colMajor [100, 102, 105] [100, 102, 105]) 3 [1, 0, -1] 10 1 oob
      = some { cash := [0, 0, 0], openEQ := [0, 0, 30], netLiq := [0, 0, 30],
               returns := [0, 0, 30] }
    ∧ ledgerTrace (colMajor [100, 102, 105] [100, 102, 105]) [1, 0, -1] 10 1 oob
      = some [
          { cash := 0, openEQ := 0, ledger := [⟨1, 1, 102⟩] },
          { cash := 0, openEQ := 30, ledger := [⟨1, 1, 102⟩] }] := by
  constructor
  · have e := mexFunction_eq_lagged (colMajor [100, 102, 105] [100, 102, 105]) [1, 0, -1] 10 1 oob
    rw [show ([1, 0, -1] : List Int).length = 3 from rfl] at e
    rw [e]
    decide!
  · rw [ledgerTrace_eq_lagged]
    decide!

/-! ## Signal alignment -/

/-- C7 (zero-cost round trip), evaluated on a short book reduced across two lots:
opens `[60, 50, 50, 40, 40]`, `sig = [-1, -2, 2, 1, 0]`, `bigPoint = 10`, `cost = 0`.
The executed trades `-1, -2, +2, +1` sum to zero and
`-bigPoint * Σ trade[i] * open(i) = 300`, but the realized cash is
`[0, 0, 0, 0, 100]`, of sum 100: the buy of 2 on bar 3 books `-100 + 100 = 0`. -/
theorem zero_cost_round_trip_fails_on_short_book (oob : Int) :
    ([-1, -2, 2, 1, 0] : List Int).dropLast.sum = 0 ∧
    (-10) * executedValue (colMajor [60, 50, 50, 40, 40] [60, 50, 50, 40, 40])
      [-1, -2, 2, 1, 0] = 300 ∧
    ∃ out, mexFunction (colMajor [60, 50, 50, 40, 40] [60, 50, 50, 40, 40]) 5
        [-1, -2, 2, 1, 0] 10 0 oob = some out ∧
      out.cash = [0, 0, 0, 0, 100] ∧ out.cash.sum = 100 := by
  refine ⟨by decide, by decide!, ?_⟩
  have e := mexFunction_eq_lagged (colMajor [60, 50, 50, 40, 40] [60, 50, 50, 40, 40])
    [-1, -2, 2, 1, 0] 10 0 oob
  rw [show ([-1, -2, 2, 1, 0] : List Int).length = 5 from rfl] at e
  rw [e]
  decide!

/-- C8 (commission accounting), evaluated on opens `[5, 10, 20, 30, 40]`,
`sig = [2, 3, -4, -1, 0]`, `bigPoint = 10`: the executed trades close
`min(4, 5) + min(1, 1) = 5` contracts, the cash is `[0, 0, 0, 800, 0]` at cost 0 and
`[0, 0, 0, 796, -5]` at cost 1, so the commissions charged are `800 - 791 = 9`, not
`1 * 5`: the full offset on bar 4 charges the lots `-2` and `+3` of the mixed ledger. -/
theorem commission_fails_after_over_reduction (oob : Int) :
    closedContracts ([2, 3, -4, -1, 0] : List Int).dropLast 0 = 5 ∧
    mexFunction (colMajor [5, 10, 20, 30, 40] [5, 10, 20, 30, 40]) 5
        [2, 3, -4, -1, 0] 10 0 oob
      = some { cash := [0, 0, 0, 800, 0], openEQ := [0, 0, 200, -100, 0],
               netLiq := [0, 0, 200, 700, 800], returns := [0, 0, 200, 500, 100] } ∧
    mexFunction (colMajor [5, 10, 20, 30, 40] [5, 10, 20, 30, 40]) 5
        [2, 3, -4, -1, 0] 10 1 oob
      = some { cash := [0, 0, 0, 796, -5], openEQ := [0, 0, 200, -100, 0],
               netLiq := [0, 0, 200, 696, 791], returns := [0, 0, 200, 496, 95] } ∧
    ([0, 0, 0, 796, -5] : List ℚ).sum = 791 ∧
    ([0, 0, 0, 800, 0] : List ℚ).sum
      - 1 * (closedContracts ([2, 3, -4, -1, 0] : List Int).dropLast 0 : ℚ) = 795 := by
  have e0 := mexFunction_eq_lagged (colMajor [5, 10, 20, 30, 40] [5, 10, 20, 30, 40])
    [2, 3, -4, -1, 0] 10 0 oob
  have e1 := mexFunction_eq_lagged (colMajor [5, 10, 20, 30, 40] [5, 10, 20, 30, 40])
    [2, 3, -4, -1, 0] 10 1 oob
  rw [show ([2, 3, -4, -1, 0] : List Int).length = 5 from rfl] at e0 e1
  rw [e0, e1]
  refine ⟨by decide, ?_, ?_, ?_, ?_⟩ <;> decide!

/-! ## The full or over-offset step -/

/-- The full or over-offset step on exact integers. For every non-empty ledger of one sign with net
position `net` and every trade `q` on bar `i` at the price `p` with
`sign q ≠ sign net` and `|q| ≥ |net|`: the trade handling returns, the cash of the
bar is the sum over all lots `L` of
`(p - L.price) * L.quantity * bigPoint - |L.quantity| * cost`, the new ledger is
empty when `q + net = 0` and is the single lot `{i, q + net, p}` otherwise, and no
old lot is left in it. -/
theorem full_offset_step_exact (i : Nat) (q : Int) (p bigPoint cost : ℚ)
    (openLedger : List tradeEntry) (hne : openLedger ≠ []) (hsign : singleSign openLedger)
    (hopp : Int.sign q ≠ Int.sign (sumQty openLedger))
    (hge : |q| ≥ |sumQty openLedger|) :
    tradeStep i q p bigPoint cost openLedger
      = some (if q + sumQty openLedger = 0 then []
              else [{ index := i, quantity := q + sumQty openLedger, price := p }],
          (openLedger.map (fun L =>
            (p - L.price) * L.quantity * bigPoint - (|L.quantity| : Int) * cost)).sum)
    ∧ ∀ L ∈ openLedger,
        L ∉ (if q + sumQty openLedger = 0 then []
              else [{ index := i, quantity := q + sumQty openLedger, price := p }]) := by
  have hadd : ¬ ((sumQty openLedger < 0 ∧ q < 0) ∨ (sumQty openLedger > 0 ∧ q > 0)) := by
    rintro (⟨h1, h2⟩ | ⟨h1, h2⟩)
    · rw [Int.sign_eq_neg_one_of_neg h1, Int.sign_eq_neg_one_of_neg h2] at hopp
      exact hopp rfl
    · rw [Int.sign_eq_one_of_pos h1, Int.sign_eq_one_of_pos h2] at hopp
      exact hopp rfl
  constructor
  · unfold tradeStep
    simp only []
    rw [if_neg hadd, if_pos hge, closeAll_eq, zero_add]
    by_cases h0 : q + sumQty openLedger = 0
    · rw [if_neg (by simp [h0]), if_pos h0]
      rfl
    · rw [if_pos h0, if_neg h0]
      rfl
  · intro L hL
    by_cases h0 : q + sumQty openLedger = 0
    · rw [if_pos h0]
      simp
    · rw [if_neg h0, List.mem_singleton]
      intro hEq
      have hq : L.quantity = q + sumQty openLedger := by rw [hEq]
      rcases hsign with hpos | hneg
      · have hLpos := hpos L hL
        have hnet : 0 < sumQty openLedger := by
          have := sumQty_neg_of_all_neg (openLedger.map
            (fun M => { M with quantity := -M.quantity })) (by simpa using hne)
            (by
              intro M hM
              obtain ⟨K, hK, rfl⟩ := List.mem_map.mp hM
              have := hpos K hK
              simp only
              omega)
          have hs : sumQty (openLedger.map (fun M => { M with quantity := -M.quantity }))
              = -sumQty openLedger := by
            rw [sumQty_eq, sumQty_eq, List.map_map]
            clear * -
            induction openLedger with
            | nil => simp
            | cons K rest ih =>
              simp only [List.map_cons, List.sum_cons, Function.comp] at ih ⊢
              rw [ih]
              ring
          omega
        have hqn : ¬ (0 < q) := fun hq0 => hadd (Or.inr ⟨hnet, hq0⟩)
        rw [abs_of_nonpos (by omega), abs_of_pos hnet] at hge
        omega
      · have hLneg := hneg L hL
        have hnet : sumQty openLedger < 0 := sumQty_neg_of_all_neg openLedger hne hneg
        have hqn : ¬ (q < 0) := fun hq0 => hadd (Or.inl ⟨hnet, hq0⟩)
        rw [abs_of_nonneg (by omega), abs_of_neg hnet] at hge
        omega

/-! ## Net liquidation -/

theorem netLiqPass_zero (n : Nat) :
    netLiqPass (List.replicate n 0) (List.replicate n 0) 0 = List.replicate n 0 := by
  induction n with
  | zero => rfl
  | succ n ih =>
    simp only [List.replicate_succ, netLiqPass, add_zero]
    rw [ih]

theorem returnsFrom_zero (n : Nat) :
    returnsFrom 0 (List.replicate n 0) = List.replicate n 0 := by
  induction n with
  | zero => rfl
  | succ n ih =>
    simp only [List.replicate_succ, returnsFrom, sub_zero]
    rw [ih]

theorem returnsPass_zero (n : Nat) :
    returnsPass (List.replicate n 0) = List.replicate n 0 := by
  cases n with
  | zero => rfl
  | succ n => simp only [List.replicate_succ, returnsPass, returnsFrom_zero]

/-- C14 (no-trade quiescence). For every input of length `N ≥ 1` whose signals are
all zero the engine returns `cash`, `openEQ`, `netLiq` and `returns` with `N` zeros
each, whatever the prices, `bigPoint` and `cost`. -/
theorem no_trade_quiescence (dataPtr : Nat → ℚ) (sig : List Int) (bigPoint cost : ℚ)
    (oob : Int) (_hN : 0 < sig.length) (hz : ∀ x ∈ sig, x = 0) :
    mexFunction dataPtr sig.length sig bigPoint cost oob
      = some { cash := List.replicate sig.length 0, openEQ := List.replicate sig.length 0,
               netLiq := List.replicate sig.length 0,
               returns := List.replicate sig.length 0 } := by
  have hn : ¬ (numTrades sig > 0) := by
    unfold numTrades
    have : sig.filter (fun t => decide (t ≠ 0)) = [] := by
      rw [List.filter_eq_nil_iff]
      intro x hx
      simp [hz x hx]
    rw [this]
    simp
  unfold mexFunction ledgerTrace firstBar
  rw [if_neg (by simp), if_neg hn, if_neg hn]
  simp only [List.map_nil, List.append_nil, aggregate, netLiqPass_zero, returnsPass_zero]

/-- C14 at `open = [10, 11, 12]`, `close = [11, 12, 13]`, `sig = [0, 0, 0]`,
`bigPoint = 10`, `cost = 1`. -/
theorem no_trade_quiescence_witness :
    0 < ([0, 0, 0] : List Int).length ∧ (∀ x ∈ ([0, 0, 0] : List Int), x = 0) ∧
    mexFunction (colMajor [10, 11, 12] [11, 12, 13]) ([0, 0, 0] : List Int).length
        [0, 0, 0] 10 1 0
      = some { cash := List.replicate ([0, 0, 0] : List Int).length 0,
               openEQ := List.replicate ([0, 0, 0] : List Int).length 0,
               netLiq := List.replicate ([0, 0, 0] : List Int).length 0,
               returns := List.replicate ([0, 0, 0] : List Int).length 0 } :=
  ⟨by decide, by decide, no_trade_quiescence (colMajor [10, 11, 12] [11, 12, 13])
    [0, 0, 0] 10 1 0 (by decide) (by decide)⟩

/-! ## Zero lots -/

/-- C15 (no zero lots), evaluated on the ledger `[+2 @10, +3 @20]` and a sell of
exactly 2: with opens `[5, 10, 20, 30]`, `sig = [2, 3, -2, 0]`, `bigPoint = 10`,
`cost = 1` the sell on bar 3 reduces the head lot in place to the quantity 0 and
leaves it in the ledger, `[0 @10, +3 @20]`. -/
theorem zero_lot_stays_after_exact_sell (oob : Int) :
    tradeStep 3 (-2) 30 10 1 [⟨1, 2, 10⟩, ⟨2, 3, 20⟩]
      = some ([⟨1, 0, 10⟩, ⟨2, 3, 20⟩], 398)
    ∧ ledgerTrace (colMajor [5, 10, 20, 30] [5, 10, 20, 30]) [2, 3, -2, 0] 10 1 oob
      = some [
          { cash := 0, openEQ := 0, ledger := [⟨1, 2, 10⟩] },
          { cash := 0, openEQ := 200, ledger := [⟨1, 2, 10⟩, ⟨2, 3, 20⟩] },
          { cash := 398, openEQ := 300, ledger := [⟨1, 0, 10⟩, ⟨2, 3, 20⟩] }] := by
  constructor
  · decide!
  · rw [ledgerTrace_eq_lagged]
    decide!

/-! ## The net position -/

theorem reachable_inv (l : List tradeEntry) (h : Reachable l) : ledgerInv l := by
  induction h with
  | empty => exact ledgerInv_nil
  | trade i q p bigPoint cost l r _ hr ih =>
    obtain ⟨r', hr', hinv⟩ := tradeStep_inv i q p bigPoint cost l ih
    rw [hr] at hr'
    simp only [Option.some.injEq] at hr'
    rw [hr']
    exact hinv

/-- A buy smaller than a book of short lots: `needQty` starts at the buy, shrinks in
absolute value at every iteration and ends at zero. -/
theorem needTrace_short (l : List tradeEntry) :
    ∀ needQty : Int, (∀ L ∈ l, L.quantity < 0) → 0 ≤ needQty → needQty < -sumQty l →
      ∃ tail, needTrace l needQty = some (needQty :: tail) ∧
        List.Chain (fun a b => |b| < |a|) needQty tail ∧
        (needQty :: tail).getLast (List.cons_ne_nil _ _) = 0 := by
  induction l with
  | nil =>
    intro needQty _ h0 h1
    simp [sumQty_nil] at h1
    omega
  | cons L rest ih =>
    intro needQty hneg h0 h1
    have hL : L.quantity < 0 := hneg L (List.mem_cons_self _ _)
    have hrest : ∀ M ∈ rest, M.quantity < 0 := fun M hM => hneg M (List.mem_cons_of_mem _ hM)
    rw [sumQty_cons] at h1
    by_cases hz : needQty = 0
    · refine ⟨[], by simp [needTrace, hz], List.Chain.nil, by simp [hz]⟩
    · by_cases hgt : |L.quantity| > needQty
      · refine ⟨[0], by simp only [needTrace, hz, hgt, if_true, if_false], ?_, by simp⟩
        refine List.Chain.cons ?_ List.Chain.nil
        simpa using hz
      · have hgt2 := hgt
        rw [abs_of_neg hL] at hgt2
        obtain ⟨tail, ht, hchain, hlast⟩ := ih (needQty + L.quantity) hrest (by omega) (by omega)
        refine ⟨(needQty + L.quantity) :: tail, ?_, ?_, ?_⟩
        · simp only [needTrace, hz, hgt, if_false, ht, Option.map_some']
        · refine List.Chain.cons ?_ hchain
          rw [abs_of_nonneg (by omega), abs_of_nonneg h0]
          omega
        · rw [List.getLast_cons (List.cons_ne_nil _ _)]
          exact hlast

/-- The partial-offset loop on exact integers. For every ledger reachable from
the empty ledger and every trade `q` with `sign q ≠ sign net` and `|q| < |net|`: the
trade handling is the partial-offset loop, the loop returns (the head lot read by
`at(0)` exists at every iteration), the successive values of `needQty` start at `q`,
strictly decrease in absolute value from one iteration to the next, and the last
one is `0`. -/
theorem partial_offset_loop_terminates_exact (i : Nat) (q : Int) (p bigPoint cost : ℚ)
    (l : List tradeEntry) (hreach : Reachable l)
    (hopp : Int.sign q ≠ Int.sign (sumQty l)) (hlt : |q| < |sumQty l|) :
    ∃ r tail, tradeStep i q p bigPoint cost l = partialOffset p bigPoint cost l q 0 ∧
      partialOffset p bigPoint cost l q 0 = some r ∧
      needTrace l q = some (q :: tail) ∧
      List.Chain (fun a b => |b| < |a|) q tail ∧
      (q :: tail).getLast (List.cons_ne_nil _ _) = 0 := by
  have hinv := reachable_inv l hreach
  have hadd : ¬ ((sumQty l < 0 ∧ q < 0) ∨ (sumQty l > 0 ∧ q > 0)) := by
    rintro (⟨h1, h2⟩ | ⟨h1, h2⟩)
    · rw [Int.sign_eq_neg_one_of_neg h1, Int.sign_eq_neg_one_of_neg h2] at hopp
      exact hopp rfl
    · rw [Int.sign_eq_one_of_pos h1, Int.sign_eq_one_of_pos h2] at hopp
      exact hopp rfl
  have hfull : ¬ (|q| ≥ |sumQty l|) := not_le.mpr hlt
  have hstep : tradeStep i q p bigPoint cost l = partialOffset p bigPoint cost l q 0 := by
    unfold tradeStep
    simp only []
    rw [if_neg hadd, if_neg hfull]
  have hnet : sumQty l ≠ 0 := by
    intro h0
    rw [h0] at hlt
    simp at hlt
    exact absurd hlt (not_lt.mpr (abs_nonneg q))
  rcases lt_or_gt_of_ne hnet with hneg | hpos
  · have hq : 0 ≤ q := by
      by_contra hq
      exact hadd (Or.inl ⟨hneg, by omega⟩)
    have hlt2 : q < -sumQty l := by
      rw [abs_of_nonneg hq, abs_of_neg hneg] at hlt
      exact hlt
    have hall := ledgerInv_all_neg l hinv hneg
    obtain ⟨r, hr, _, _⟩ := partialOffset_short p bigPoint cost l q 0 hall hq hlt2
    obtain ⟨tail, ht, hchain, hlast⟩ := needTrace_short l q hall hq hlt2
    exact ⟨r, tail, hstep, hr, ht, hchain, hlast⟩
  · have hq : q ≤ 0 := by
      by_contra hq
      exact hadd (Or.inr ⟨hpos, by omega⟩)
    cases l with
    | nil => simp [sumQty_nil] at hpos
    | cons L rest =>
      rcases eq_or_lt_of_le hq with h0 | hneg
      · subst h0
        exact ⟨_, [], hstep, partialOffset_zero _ _ _ _ _, by simp [needTrace],
          List.Chain.nil, by simp⟩
      · have hz : q ≠ 0 := by omega
        have hgt : |L.quantity| > q := lt_of_lt_of_le hneg (abs_nonneg _)
        refine ⟨_, [0], hstep, partialOffset_sell p bigPoint cost L rest q 0 hneg,
          by simp only [needTrace, hz, hgt, if_true, if_false], ?_, by simp⟩
        refine List.Chain.cons ?_ List.Chain.nil
        simpa using hz

/-! ## Reads of the membership search and of the price matrix -/

theorem isMemberReads_head (arr : Nat → Int) (n : Nat) (s : Int) :
    (isMemberReads arr n s).head? = some n := by
  cases n <;> rfl

/-- C17 (membership search), evaluated: called with `elements = n` on an array of
`n` cells, `isMember` first reads the index `n`, outside `0 ≤ k < n`, whatever the
array and the search value are; on `arr = [1]` (`n = 1`, the `idxTrades` of
`sig = [1, 0, 0]`) with the search value 2 and the number 2 in the cell after the
array it reads only that cell and returns 1, although 2 is not in the array. -/
theorem isMember_reads_past_the_array (arr : Nat → Int) (n : Nat) (s : Int) :
    (isMemberReads arr n s).head? = some n ∧
    idxTrades [1, 0, 0] = [1] ∧ numTrades [1, 0, 0] = 1 ∧
    isMemberReads (idxCell [1] 2) 1 2 = [1] ∧
    isMember (idxCell [1] 2) 1 2 = 1 ∧ (2 : Nat) ∉ ([1] : List Nat) := by
  refine ⟨isMemberReads_head arr n s, ?_, ?_, ?_, ?_, ?_⟩ <;> decide

/-- C19 (price reads inside the data matrix), evaluated on a data matrix of 2 rows
and a single column with `sig = [1, 0]`: the shape checks pass, the first trade
reads the cell 1, and the open-equity loop of bar 1 reads the cell
`1 + rowsData = 3`, which is not below `rowsData * colsData = 2`. -/
theorem close_read_outside_single_column (dataPtr : Nat → ℚ) (bigPoint cost : ℚ)
    (oob : Int) :
    shapeChecks 2 1 ([1, 0] : List Int).length 1 = true ∧
    firstTradeRead [1, 0] = some 1 ∧
    closeReads dataPtr [1, 0] bigPoint cost oob = some [3] ∧ ¬ (3 < 2 * 1) := by
  refine ⟨by decide, by decide, ?_, by decide⟩
  unfold closeReads
  rw [ledgerTrace_eq_lagged]
  have hf : firstBar [1, 0] = 1 := by decide
  rw [hf]
  simp [laggedLoop, shiftedSignal, tradeStep_nil, createLineEntry]

/-! ## The 32-bit engine agrees with the exact one inside the range of `int` -/

theorem wrap32_of_abs_le (x : Int) (h : |x| ≤ intMax) : wrap32 x = x := by
  have h2 := abs_le.mp h
  unfold intMax at h2
  unfold wrap32
  omega

theorem toInt32_of_abs_le (x : Int) (h : |x| ≤ intMax) : toInt32 x = x := by
  have h2 := abs_le.mp h
  unfold toInt32
  rw [if_pos]
  unfold intMin
  unfold intMax at h2 ⊢
  omega

theorem abs32_of_abs_le (x : Int) (h : |x| ≤ intMax) : abs32 x = |x| := by
  unfold abs32
  exact wrap32_of_abs_le _ (by rw [abs_abs]; exact h)

theorem grossQty_nil : grossQty [] = 0 := rfl

theorem grossQty_cons (L : tradeEntry) (l : List tradeEntry) :
    grossQty (L :: l) = |L.quantity| + grossQty l := by
  simp [grossQty]

theorem grossQty_nonneg (l : List tradeEntry) : 0 ≤ grossQty l := by
  induction l with
  | nil => simp [grossQty_nil]
  | cons L rest ih =>
    rw [grossQty_cons]
    have := abs_nonneg L.quantity
    omega

theorem abs_sumQty_le (l : List tradeEntry) : |sumQty l| ≤ grossQty l := by
  induction l with
  | nil => simp [sumQty_nil, grossQty_nil]
  | cons L rest ih =>
    rw [sumQty_cons, grossQty_cons]
    have := abs_add L.quantity (sumQty rest)
    omega

theorem abs_quantity_le (l : List tradeEntry) (L : tradeEntry) (h : L ∈ l) :
    |L.quantity| ≤ grossQty l := by
  induction l with
  | nil => simp at h
  | cons M rest ih =>
    rw [grossQty_cons]
    rcases List.mem_cons.mp h with e | e
    · subst e
      have := grossQty_nonneg rest
      omega
    · have := ih e
      have := abs_nonneg M.quantity
      omega

theorem foldl_wrap32 (l : List tradeEntry) :
    ∀ a : Int, |a| + grossQty l ≤ intMax →
      l.foldl (fun sumOfQty it => wrap32 (sumOfQty + it.quantity)) a
        = a + (l.map tradeEntry.quantity).sum := by
  induction l with
  | nil => intro a _; simp
  | cons L rest ih =>
    intro a h
    rw [grossQty_cons] at h
    have hadd := abs_add a L.quantity
    have hnn := grossQty_nonneg rest
    rw [List.foldl_cons, wrap32_of_abs_le _ (by omega), ih _ (by omega)]
    simp [add_assoc]

theorem sumQty32_eq (l : List tradeEntry) (h : grossQty l ≤ intMax) :
    sumQty32 l = sumQty l := by
  unfold sumQty32
  rw [foldl_wrap32 l 0 (by simpa using h), sumQty_eq]
  simp

theorem closeAll32_eq (p bigPoint cost : ℚ) (l : List tradeEntry) :
    ∀ c : ℚ, grossQty l ≤ intMax →
      closeAll32 p bigPoint cost l c = closeAll p bigPoint cost l c := by
  induction l with
  | nil => intro c _; rfl
  | cons L rest ih =>
    intro c h
    rw [grossQty_cons] at h
    have hnn := grossQty_nonneg rest
    have hL := abs_nonneg L.quantity
    simp only [closeAll32, closeAll]
    rw [abs32_of_abs_le _ (by omega), ih _ (by omega)]

theorem partialOffset32_eq (p bigPoint cost : ℚ) (l : List tradeEntry) :
    ∀ (needQty : Int) (c : ℚ), |needQty| + grossQty l ≤ intMax →
      partialOffset32 p bigPoint cost l needQty c
        = partialOffset p bigPoint cost l needQty c := by
  induction l with
  | nil => intro needQty c _; rfl
  | cons L rest ih =>
    intro needQty c h
    rw [grossQty_cons] at h
    have hnn := grossQty_nonneg rest
    have hL := abs_nonneg L.quantity
    have hN := abs_nonneg needQty
    have h1 := abs_add L.quantity needQty
    have h2 := abs_add needQty L.quantity
    simp only [partialOffset32, partialOffset]
    rw [abs32_of_abs_le L.quantity (by omega), abs32_of_abs_le needQty (by omega),
      wrap32_of_abs_le (L.quantity + needQty) (by omega),
      wrap32_of_abs_le (-needQty) (by rw [abs_neg]; omega),
      wrap32_of_abs_le (-L.quantity) (by rw [abs_neg]; omega),
      wrap32_of_abs_le (needQty + L.quantity) (by omega),
      ih _ _ (by omega)]

theorem needTrace32_eq (l : List tradeEntry) :
    ∀ needQty : Int, |needQty| + grossQty l ≤ intMax →
      needTrace32 l needQty = needTrace l needQty := by
  induction l with
  | nil => intro needQty _; rfl
  | cons L rest ih =>
    intro needQty h
    rw [grossQty_cons] at h
    have hnn := grossQty_nonneg rest
    have hL := abs_nonneg L.quantity
    have hN := abs_nonneg needQty
    have h2 := abs_add needQty L.quantity
    simp only [needTrace32, needTrace]
    rw [abs32_of_abs_le L.quantity (by omega),
      wrap32_of_abs_le (needQty + L.quantity) (by omega), ih _ (by omega)]

/-- Inside the range of `int` the trade handling on `int` is the exact one. -/
theorem tradeStep32_eq (i : Nat) (q : Int) (p bigPoint cost : ℚ) (l : List tradeEntry)
    (h : grossQty l + |q| ≤ intMax) :
    tradeStep32 i q p bigPoint cost l = tradeStep i q p bigPoint cost l := by
  have hnn := grossQty_nonneg l
  have hq := abs_nonneg q
  have hs := abs_sumQty_le l
  have hadd := abs_add q (sumQty l)
  unfold tradeStep32 tradeStep
  simp only []
  rw [sumQty32_eq l (by omega), toInt32_of_abs_le q (by omega),
    abs32_of_abs_le (sumQty l) (by omega), closeAll32_eq _ _ _ _ _ (by omega),
    toInt32_of_abs_le (q + sumQty l) (by omega),
    partialOffset32_eq _ _ _ _ _ _ (by omega)]

theorem toInt32_of_range (x : Int) (h1 : intMin ≤ x) (h2 : x ≤ intMax) : toInt32 x = x := by
  unfold toInt32
  rw [if_pos ⟨h1, h2⟩]

theorem grossQty_of_pos (l : List tradeEntry) (h : ∀ L ∈ l, 0 < L.quantity) :
    grossQty l = sumQty l ∧ 0 ≤ sumQty l := by
  induction l with
  | nil => simp [grossQty_nil, sumQty_nil]
  | cons L rest ih =>
    have hL := h L (List.mem_cons_self _ _)
    obtain ⟨h1, h2⟩ := ih (fun M hM => h M (List.mem_cons_of_mem _ hM))
    rw [grossQty_cons, sumQty_cons, abs_of_pos hL, h1]
    exact ⟨rfl, by omega⟩

theorem grossQty_of_neg (l : List tradeEntry) (h : ∀ L ∈ l, L.quantity < 0) :
    grossQty l = -sumQty l ∧ sumQty l ≤ 0 := by
  induction l with
  | nil => simp [grossQty_nil, sumQty_nil]
  | cons L rest ih =>
    have hL := h L (List.mem_cons_self _ _)
    obtain ⟨h1, h2⟩ := ih (fun M hM => h M (List.mem_cons_of_mem _ hM))
    rw [grossQty_cons, sumQty_cons, abs_of_neg hL, h1]
    exact ⟨by omega, by omega⟩

theorem grossQty_of_singleSign (l : List tradeEntry) (h : singleSign l) :
    grossQty l = |sumQty l| := by
  rcases h with h | h
  · obtain ⟨h1, h2⟩ := grossQty_of_pos l h
    rw [h1, abs_of_nonneg h2]
  · obtain ⟨h1, h2⟩ := grossQty_of_neg l h
    rw [h1, abs_of_nonpos h2]

/-- C9, the claim as stated is false on the `int` of the source. On the short lot
`-1 @10` the buy `q = 3000000000` at 11 (`sign q ≠ sign net`, `|q| ≥ |net|`) leaves
the lot `{2, -2147483648, 11}`, not `{2, q + net, 11}` with `q + net = 2999999999`.
On the long book `[2^30 @10, 2^30 @10]`, whose net position `2^31` is no `int`, the
sell `q = -2^31` at 11 is added as a third lot and books no cash, where the claim
has the ledger emptied. -/
theorem full_offset_step_overflows :
    (([⟨1, -1, 10⟩] : List tradeEntry) ≠ [] ∧ singleSign [⟨1, -1, 10⟩] ∧
      Int.sign 3000000000 ≠ Int.sign (sumQty [⟨1, -1, 10⟩]) ∧
      |(3000000000 : Int)| ≥ |sumQty [⟨1, -1, 10⟩]| ∧
      3000000000 + sumQty [⟨1, -1, 10⟩] = 2999999999 ∧
      tradeStep32 2 3000000000 11 10 1 [⟨1, -1, 10⟩]
        = some ([⟨2, -2147483648, 11⟩], -11)) ∧
    (singleSign [⟨1, 1073741824, 10⟩, ⟨2, 1073741824, 10⟩] ∧
      Int.sign (-2147483648) ≠ Int.sign (sumQty [⟨1, 1073741824, 10⟩, ⟨2, 1073741824, 10⟩]) ∧
      |(-2147483648 : Int)| ≥ |sumQty [⟨1, 1073741824, 10⟩, ⟨2, 1073741824, 10⟩]| ∧
      -2147483648 + sumQty [⟨1, 1073741824, 10⟩, ⟨2, 1073741824, 10⟩] = 0 ∧
      tradeStep32 3 (-2147483648) 11 10 1 [⟨1, 1073741824, 10⟩, ⟨2, 1073741824, 10⟩]
        = some ([⟨1, 1073741824, 10⟩, ⟨2, 1073741824, 10⟩, ⟨3, -2147483648, 11⟩], 0)) := by
  refine ⟨⟨by decide, Or.inr (by decide), by decide, by decide, by decide, by decide!⟩,
    ⟨Or.inl (by decide), by decide, by decide, by decide, by decide!⟩⟩

/-- C9 as amended, on the `int` of the source. For every non-empty ledger of one
sign whose net position `net` satisfies `|net| ≤ 2^31 - 1` and every trade `q` on bar
`i` at the price `p` with `sign q ≠ sign net`, `|q| ≥ |net|` and a residual
`-2^31 ≤ q + net ≤ 2^31 - 1`: `sumQty` returns `net`, the trade handling returns, the
cash of the bar is the sum over all lots `L` of
`(p - L.price) * L.quantity * bigPoint - |L.quantity| * cost`, the new ledger is
empty when `q + net = 0` and is the single lot `{i, q + net, p}` otherwise, and no
old lot is left in it. -/
theorem full_offset_step_int (i : Nat) (q : Int) (p bigPoint cost : ℚ)
    (openLedger : List tradeEntry) (hne : openLedger ≠ []) (hsign : singleSign openLedger)
    (hopp : Int.sign q ≠ Int.sign (sumQty openLedger))
    (hge : |q| ≥ |sumQty openLedger|)
    (hnet : |sumQty openLedger| ≤ intMax)
    (hlo : intMin ≤ q + sumQty openLedger) (hhi : q + sumQty openLedger ≤ intMax) :
    sumQty32 openLedger = sumQty openLedger ∧
    tradeStep32 i q p bigPoint cost openLedger
      = some (if q + sumQty openLedger = 0 then []
              else [{ index := i, quantity := q + sumQty openLedger, price := p }],
          (openLedger.map (fun L =>
            (p - L.price) * L.quantity * bigPoint - (|L.quantity| : Int) * cost)).sum)
    ∧ ∀ L ∈ openLedger,
        L ∉ (if q + sumQty openLedger = 0 then []
              else [{ index := i, quantity := q + sumQty openLedger, price := p }]) := by
  have hg : grossQty openLedger ≤ intMax := by
    rw [grossQty_of_singleSign openLedger hsign]
    exact hnet
  have hs := sumQty32_eq openLedger hg
  have hex := full_offset_step_exact i q p bigPoint cost openLedger hne hsign hopp hge
  have hadd : ¬ ((sumQty openLedger < 0 ∧ q < 0) ∨ (sumQty openLedger > 0 ∧ q > 0)) := by
    rintro (⟨h1, h2⟩ | ⟨h1, h2⟩)
    · rw [Int.sign_eq_neg_one_of_neg h1, Int.sign_eq_neg_one_of_neg h2] at hopp
      exact hopp rfl
    · rw [Int.sign_eq_one_of_pos h1, Int.sign_eq_one_of_pos h2] at hopp
      exact hopp rfl
  refine ⟨hs, ?_, hex.2⟩
  rw [← hex.1]
  unfold tradeStep32 tradeStep
  simp only []
  rw [hs, if_neg hadd, if_neg hadd, abs32_of_abs_le _ hnet, if_pos hge, if_pos hge,
    closeAll32_eq _ _ _ _ _ hg, toInt32_of_range _ hlo hhi]

/-- C9 as amended at the lot `+2 @10` with `q = -3` at 11, `bigPoint = 10`,
`cost = 1`: the cash is 18 and the single lot `-1 @11` is left. -/
theorem full_offset_step_int_witness :
    ([⟨1, 2, 10⟩] : List tradeEntry) ≠ [] ∧ singleSign [⟨1, 2, 10⟩] ∧
    Int.sign (-3) ≠ Int.sign (sumQty [⟨1, 2, 10⟩]) ∧ |(-3 : Int)| ≥ |sumQty [⟨1, 2, 10⟩]| ∧
    |sumQty [⟨1, 2, 10⟩]| ≤ intMax ∧ intMin ≤ -3 + sumQty [⟨1, 2, 10⟩] ∧
    -3 + sumQty [⟨1, 2, 10⟩] ≤ intMax ∧
    tradeStep32 2 (-3) 11 10 1 [⟨1, 2, 10⟩] = some ([⟨2, -1, 11⟩], 18) :=
  ⟨by decide, Or.inl (by decide), by decide, by decide, by decide, by decide, by decide,
    (full_offset_step_int 2 (-3) 11 10 1 [⟨1, 2, 10⟩] (by decide) (Or.inl (by decide))
      (by decide) (by decide) (by decide) (by decide) (by decide)).2.1.trans (by decide!)⟩

/-! ## Bars without a closing trade on `int` -/

theorem reachable32_reachable (l : List tradeEntry) (h : Reachable32 l) : Reachable l := by
  induction h with
  | empty => exact Reachable.empty
  | trade i q p bigPoint cost l r _ hfit hr ih =>
    rw [tradeStep32_eq _ _ _ _ _ _ hfit] at hr
    exact Reachable.trade i q p bigPoint cost l r ih hr

/-- C16, the claim as stated is false on the `int` of the source. The ledger
`[1070000000 @10, 1080000000 @10]` is reached from the empty ledger by two buys;
`sumQty` returns `-2144967296` for it, so the buy `q = 1070000000` has
`sign q ≠ sign netPO` and `|q| < |netPO|` and enters the loop. There `needQty` goes
from `1070000000` to `2140000000`, then wraps to `-1074967296` with the ledger
emptied, and `at(0)` is reached on the empty deque: the loop does not exit with
`needQty = 0`, and the run on `sig = [1070000000, 1080000000, 1070000000, 0]`
throws. -/
theorem partial_offset_loop_overflows :
    tradeStep32 1 1070000000 10 10 1 [] = some ([⟨1, 1070000000, 10⟩], 0) ∧
    tradeStep32 2 1080000000 10 10 1 [⟨1, 1070000000, 10⟩]
      = some ([⟨1, 1070000000, 10⟩, ⟨2, 1080000000, 10⟩], 0) ∧
    sumQty32 [⟨1, 1070000000, 10⟩, ⟨2, 1080000000, 10⟩] = -2144967296 ∧
    Int.sign 1070000000 ≠ Int.sign (sumQty32 [⟨1, 1070000000, 10⟩, ⟨2, 1080000000, 10⟩]) ∧
    |(1070000000 : Int)| < |sumQty32 [⟨1, 1070000000, 10⟩, ⟨2, 1080000000, 10⟩]| ∧
    wrap32 (1070000000 + 1070000000) = 2140000000 ∧
    wrap32 (2140000000 + 1080000000) = -1074967296 ∧
    needTrace32 [⟨1, 1070000000, 10⟩, ⟨2, 1080000000, 10⟩] (toInt32 1070000000) = none ∧
    tradeStep32 3 1070000000 10 10 1 [⟨1, 1070000000, 10⟩, ⟨2, 1080000000, 10⟩] = none ∧
    mexFunction32 (colMajor [10, 10, 10, 10] [10, 10, 10, 10]) 4
      [1070000000, 1080000000, 1070000000, 0] 10 1 0 = none := by
  refine ⟨by decide!, by decide!, by decide, by decide, by decide, by decide, by decide,
    by decide, by decide!, by decide!⟩

/-- C16 as amended, on the `int` of the source. For every ledger reached from the
empty ledger by trades that stay within the range of `int`, and every trade `q`
with `sign q ≠ sign netPO`, `|q| < |netPO|` whose size together with the gross
position of the ledger is at most `2^31 - 1`: the trade handling is the
partial-offset loop started with `needQty = q`, the loop returns (the head lot read
by `at(0)` exists at every iteration), the successive values of `needQty` start at
`q`, strictly decrease in absolute value from one iteration to the next, and the
last one is `0`. -/
theorem partial_offset_loop_terminates_int (i : Nat) (q : Int) (p bigPoint cost : ℚ)
    (l : List tradeEntry) (hreach : Reachable32 l) (hfit : grossQty l + |q| ≤ intMax)
    (hopp : Int.sign q ≠ Int.sign (sumQty32 l)) (hlt : |q| < |sumQty32 l|) :
    ∃ r tail, toInt32 q = q ∧
      tradeStep32 i q p bigPoint cost l = partialOffset32 p bigPoint cost l (toInt32 q) 0 ∧
      partialOffset32 p bigPoint cost l (toInt32 q) 0 = some r ∧
      needTrace32 l (toInt32 q) = some (q :: tail) ∧
      List.Chain (fun a b => |b| < |a|) q tail ∧
      (q :: tail).getLast (List.cons_ne_nil _ _) = 0 := by
  have hnn := grossQty_nonneg l
  have hq := abs_nonneg q
  have hs := sumQty32_eq l (by omega)
  rw [hs] at hopp hlt
  obtain ⟨r, tail, hstep, hr, ht, hchain, hlast⟩ :=
    partial_offset_loop_terminates_exact i q p bigPoint cost l
      (reachable32_reachable l hreach) hopp hlt
  have hconv := toInt32_of_abs_le q (by omega)
  have hpo := partialOffset32_eq p bigPoint cost l q 0 (by omega)
  refine ⟨r, tail, hconv, ?_, ?_, ?_, hchain, hlast⟩
  · rw [hconv, hpo, tradeStep32_eq _ _ _ _ _ _ hfit]
    exact hstep
  · rw [hconv, hpo]
    exact hr
  · rw [hconv, needTrace32_eq l q (by omega)]
    exact ht

/-- C16 as amended at the short book `[-1 @50, -2 @50]`, reached from the empty
ledger by two sells, and the buy of 2 at 40 with `bigPoint = 10`, `cost = 1`. -/
theorem partial_offset_loop_terminates_int_witness :
    Reachable32 [⟨1, -1, 50⟩, ⟨2, -2, 50⟩] ∧
    grossQty [⟨1, -1, 50⟩, ⟨2, -2, 50⟩] + |(2 : Int)| ≤ intMax ∧
    Int.sign 2 ≠ Int.sign (sumQty32 [⟨1, -1, 50⟩, ⟨2, -2, 50⟩]) ∧
    |(2 : Int)| < |sumQty32 [⟨1, -1, 50⟩, ⟨2, -2, 50⟩]| ∧
    ∃ r tail, toInt32 2 = 2 ∧
      tradeStep32 3 2 40 10 1 [⟨1, -1, 50⟩, ⟨2, -2, 50⟩]
        = partialOffset32 40 10 1 [⟨1, -1, 50⟩, ⟨2, -2, 50⟩] (toInt32 2) 0 ∧
      partialOffset32 40 10 1 [⟨1, -1, 50⟩, ⟨2, -2, 50⟩] (toInt32 2) 0 = some r ∧
      needTrace32 [⟨1, -1, 50⟩, ⟨2, -2, 50⟩] (toInt32 2) = some (2 :: tail) ∧
      List.Chain (fun a b => |b| < |a|) (2 : Int) tail ∧
      ((2 : Int) :: tail).getLast (List.cons_ne_nil _ _) = 0 :=
  have hreach : Reachable32 [⟨1, -1, 50⟩, ⟨2, -2, 50⟩] :=
    Reachable32.trade 2 (-2) 50 10 1 [⟨1, -1, 50⟩] ([⟨1, -1, 50⟩, ⟨2, -2, 50⟩], 0)
      (Reachable32.trade 1 (-1) 50 10 1 [] ([⟨1, -1, 50⟩], 0) Reachable32.empty
        (by decide) (by decide!))
      (by decide) (by decide!)
  ⟨hreach, by decide, by decide, by decide,
    partial_offset_loop_terminates_int 3 2 40 10 1 [⟨1, -1, 50⟩, ⟨2, -2, 50⟩] hreach
      (by decide) (by decide) (by decide)⟩

end CalcProfitLossSIG
